import Mathlib

/-!
Verification of the BitTorrent download client (bittorrent-rust).

Shallow embedding of the client's core data model and operations:
bytes are `Nat`, byte buffers are `List Nat`, stateful network loops become
explicit recursion over streams of incoming messages (or an oracle giving the
outcome of each network attempt), and fallible operations return `Option` or
`Except`.  SHA-1 is an external library call in the source and is treated as
an uninterpreted function parameter throughout.

Source files embedded:
  src/peer.rs     handshake frames, message receive, readiness, block fetch
  src/torrent.rs  piece sizing, availability check, download orchestrator
  src/magnet.rs   magnet URI parsing and the tracker-URL unwraps
  src/main.rs     the magnet_parse command's unwrap
The bencode codec is the external serde_bencode crate; it is modelled from
the specification (see the `Bval` section below).
-/

namespace BT

/-! ## Buffer primitives -/

/-- The sub-buffer of `l` starting at offset `s`, of length `n`
(`&l[s..s+n]` on a Rust slice). -/
def slice (l : List Nat) (s n : Nat) : List Nat := (l.drop s).take n

/-- In-place write of `d` into `buf` at offset `s`
(`buf[s..s+d.len()].copy_from_slice(&d)`). -/
def writeAt (buf : List Nat) (s : Nat) (d : List Nat) : List Nat :=
  buf.take s ++ d ++ buf.drop (s + d.length)

/-- Big-endian 4-byte encoding of a u32 (`u32::to_be_bytes`). -/
def be32 (n : Nat) : List Nat :=
  [n / 2 ^ 24 % 256, n / 2 ^ 16 % 256, n / 2 ^ 8 % 256, n % 256]

/-! ## Handshake frame, src/peer.rs lines 17-36 -/

/-- The 19 bytes of the ASCII string that names the protocol. -/
def protocolBytes : List Nat :=
  [66, 105, 116, 84, 111, 114, 114, 101, 110, 116, 32,
   112, 114, 111, 116, 111, 99, 111, 108]

structure Handshake where
  hlen : Nat
  protocol : List Nat
  reserved : List Nat
  info_hash : List Nat
  peer_id : List Nat
deriving DecidableEq

/-- Handshake::new, src/peer.rs lines 27-35: length 19, the protocol string,
eight zero reserved bytes, the given info hash and peer id. -/
def Handshake.new (info_hash peer_id : List Nat) : Handshake :=
  { hlen := 19
    protocol := protocolBytes
    reserved := List.replicate 8 0
    info_hash := info_hash
    peer_id := peer_id }

/-- bincode serialization of a Handshake: the five fields in order, fixed-size
arrays as raw bytes (68 bytes in total for well-formed fields). -/
def Handshake.toBytes (h : Handshake) : List Nat :=
  h.hlen :: (h.protocol ++ h.reserved ++ h.info_hash ++ h.peer_id)

/-- The fixed client peer id `b"00112233445566778899"`, src/peer.rs line 47. -/
def peerIdBytes : List Nat :=
  [48, 48, 49, 49, 50, 50, 51, 51, 52, 52, 53, 53, 54, 54, 55, 55, 56, 56, 57, 57]

/-- The 68 bytes Peer::handshake sends on connect (src/peer.rs lines 47-56):
the serialization of `Handshake::new(info_hash, b"00112233445566778899")`. -/
def sentHandshakeBytes (info_hash : List Nat) : List Nat :=
  (Handshake.new info_hash peerIdBytes).toBytes

/-- The peer-session state recorded by Peer::handshake (src/peer.rs 63-67):
only the remote peer id is kept. -/
structure Peer where
  id : List Nat
deriving DecidableEq

/-- Peer::handshake's processing of the 68-byte reply, src/peer.rs lines 57-68:
`read_exact` fills the 68-byte buffer (modelled as requiring a 68-byte reply),
the buffer is deserialized, and the `peer_id` field (the final 20 bytes) is
recorded.  No field of the reply is compared against anything. -/
def Peer.handshake (info_hash reply : List Nat) : Option Peer :=
  if reply.length = 68 then some { id := reply.drop 48 } else none

/-! ## Messages, src/peer.rs lines 71-102 and 183-216 -/

/-- The message-tag enum, src/peer.rs lines 189-197.  Discriminants:
UNCHOKE = 1, INTERESTED = 2, BITFIELD = 5, REQUEST = 6, PIECE = 7. -/
inductive MessageTag where
  | BITFIELD
  | INTERESTED
  | UNCHOKE
  | REQUEST
  | PIECE
deriving DecidableEq

/-- The `#[repr(u8)]` discriminant of each tag. -/
def MessageTag.toByte : MessageTag → Nat
  | .UNCHOKE => 1
  | .INTERESTED => 2
  | .BITFIELD => 5
  | .REQUEST => 6
  | .PIECE => 7

/-- The byte-to-tag conversion performed by Peer::recv's
`unsafe { mem::transmute(buf[0]) }` (src/peer.rs line 79).  The transmute is
defined only on the five declared discriminants; any other byte produces an
invalid enum value (undefined behavior), modelled as `none`. -/
def byteToTag (b : Nat) : Option MessageTag :=
  if b = 1 then some .UNCHOKE
  else if b = 2 then some .INTERESTED
  else if b = 5 then some .BITFIELD
  else if b = 6 then some .REQUEST
  else if b = 7 then some .PIECE
  else none

structure Message where
  id : MessageTag
  payload : List Nat
deriving DecidableEq

/-- One length-prefixed frame as read off the wire: the one-byte id and the
`length - 1` payload bytes. -/
structure RawFrame where
  idByte : Nat
  payload : List Nat
deriving DecidableEq

/-- Peer::recv, src/peer.rs lines 71-88: read the length prefix, read one id
byte, transmute it to `MessageTag` (no check), read the payload.  `none`
models the undefined behavior on a byte that is not a declared discriminant;
there is no skip-and-continue path. -/
def Peer.recv (f : RawFrame) : Option Message :=
  (byteToTag f.idByte).map fun t => { id := t, payload := f.payload }

/-! ## Readiness and block fetch, src/peer.rs lines 104-180

The message streams a session reads are modelled as `List Message`; each
`recv` takes the head of the stream. -/

/-- The readiness exchange inlined at the start of Peer::load_piece,
src/peer.rs lines 104-108: send INTERESTED, receive ONE message, and require
(`anyhow::ensure!`) that it is UNCHOKE.  On success the rest of the stream is
returned; any other first message is an error (`none`). -/
def Peer.loadPieceReadiness (msgs : List Message) : Option (List Message) :=
  match msgs with
  | [] => none
  | m :: rest => if m.id = MessageTag.UNCHOKE then some rest else none

/-- The payload of the REQUEST message sent by Peer::load_block,
src/peer.rs lines 169-174: the big-endian u32 triple (index, begin, length). -/
def requestPayload (index begin length : Nat) : List Nat :=
  be32 index ++ be32 begin ++ be32 length

/-- Peer::load_block, src/peer.rs lines 168-180: send the REQUEST, receive ONE
message, and require (`anyhow::ensure!`) that its id is PIECE; the whole
message is returned.  The request parameters influence only the sent payload,
never the acceptance of the reply. -/
def Peer.loadBlock (index begin length : Nat) (msgs : List Message) :
    Option Message :=
  match msgs with
  | [] => none
  | m :: _ => if m.id = MessageTag.PIECE then some m else none

/-- The block data extracted on success by Peer::load_block_with_retry,
src/peer.rs line 148: `msg.payload[8..]`, with no check of the payload's
index and begin fields. -/
def Peer.loadBlockData (index begin length : Nat) (msgs : List Message) :
    Option (List Nat) :=
  (Peer.loadBlock index begin length msgs).map fun m => m.payload.drop 8

/-! ## Torrent metadata, src/torrent.rs lines 19-79 -/

/-- The torrent fields the orchestrator uses: `info.piece_length`,
`Torrent::len()` (the total length) and `Torrent::pieces()` (the list of
20-byte piece hashes, `num_pieces` is its length). -/
structure TorrentMeta where
  pieceLength : Nat
  totalLength : Nat
  pieceHashes : List (List Nat)
deriving DecidableEq

/-- `num_pieces = piece_hashes.len()`, src/torrent.rs line 115. -/
def pieceCount (t : TorrentMeta) : Nat := t.pieceHashes.length

/-- The piece length computed for piece `i`, src/torrent.rs lines 150-153
(the same formula appears in src/peer.rs lines 110-113 and src/main.rs lines
191-194): `min(piece_length, total_length - i * piece_length)`.  The source
subtraction is on u32 and never underflows for `i < pieceCount` of a
well-formed torrent, so Nat truncated subtraction agrees with it there. -/
def pieceSize (t : TorrentMeta) (i : Nat) : Nat :=
  min t.pieceLength (t.totalLength - i * t.pieceLength)

/-- Well-formedness of a torrent per the metainfo model: the number of 20-byte
hashes in `pieces` covers the content, `piece_count = ceil(total/piece_len)`. -/
def wellFormed (t : TorrentMeta) : Prop :=
  0 < t.pieceLength ∧
  pieceCount t = (t.totalLength + t.pieceLength - 1) / t.pieceLength

/-! ## Download setup and availability, src/torrent.rs lines 117-143 -/

/-- Lookup in the `peer_piece_map` (`HashMap<usize, Vec<Peer>>` modelled as an
association list piece-index to peer list). -/
def lookupPieces (ppm : List (Nat × List Peer)) (p : Nat) : Option (List Peer) :=
  match ppm with
  | [] => none
  | (q, ps) :: rest => if q = p then some ps else lookupPieces rest p

/-- The `choose_peer` closure, src/torrent.rs lines 140-143:
`peer_piece_map.get(&piece).unwrap()` then `.choose(rng).unwrap()`.  The two
unwraps are modelled as `Option`: `none` is a panic.  `pick` stands for the
random choice. -/
def choosePeer (ppm : List (Nat × List Peer)) (pick : Nat) (p : Nat) :
    Option Peer :=
  (lookupPieces ppm p).bind fun ps =>
    if ps.isEmpty then none else some (ps.getD (pick % ps.length) ⟨[]⟩)

/-- The initial scheduling loop `for piece in 0..num_pieces { spawn(...) }`,
src/torrent.rs lines 183-185: each spawn calls `choose_peer piece`; a `none`
anywhere is a panic of the whole loop. -/
def scheduleAll (ppm : List (Nat × List Peer)) (pick : Nat → Nat) :
    List Nat → Option (List Peer)
  | [] => some []
  | p :: rest =>
    match choosePeer ppm (pick p) p with
    | none => none
    | some x =>
      match scheduleAll ppm pick rest with
      | none => none
      | some xs => some (x :: xs)

/-- The only pre-scheduling availability check in Torrent::download,
src/torrent.rs lines 136-138: error out iff `peer_piece_map.is_empty()`.
Otherwise scheduling proceeds; the inner `Option` is `none` when some
`choose_peer` unwrap panics. -/
def downloadSetup (ppm : List (Nat × List Peer)) (pick : Nat → Nat)
    (numPieces : Nat) : Except Unit (Option (List Peer)) :=
  if ppm.isEmpty then Except.error ()
  else Except.ok (scheduleAll ppm pick (List.range numPieces))

/-! ## The download loop, src/torrent.rs lines 145-200

Concurrency is modelled as a nondeterministically scheduled sequential loop:
the pending multiset of piece tasks is a queue, and at each step `pick`
selects (by rotation) which finished task the `join_next` returns.  The
outcome of the k-th attempt at piece `p` (the result of
`peer.load_piece(p, piece_len)` over the network) is given by the oracle
`loadRes p k`; `none` is a block-level fatal error. -/

/-- The body of the spawned task, src/torrent.rs lines 155-180: on a load
error the task yields the empty marker `(piece, vec![])`; on success the SHA-1
of the data is compared with `piece_hashes[piece]` and a mismatch also yields
the empty marker; only a verified piece yields its data. -/
def attemptData (sha1 : List Nat → List Nat) (t : TorrentMeta)
    (loadRes : Nat → Nat → Option (List Nat)) (p k : Nat) : List Nat :=
  match loadRes p k with
  | none => []
  | some data => if t.pieceHashes.getD p [] ≠ sha1 data then [] else data

/-- The `join_next` loop, src/torrent.rs lines 189-198: take one finished
task (chosen by `pick` from the pending queue, each entry a pair of piece
index and attempt number); an empty result re-enqueues the piece, a
non-empty (verified) result is copied into `file_bytes` at offset
`piece * piece_length`.  Fuel bounds the number of iterations; `none` means
the loop did not terminate within the fuel. -/
def downloadLoop (sha1 : List Nat → List Nat) (t : TorrentMeta)
    (loadRes : Nat → Nat → Option (List Nat)) (pick : Nat → Nat) :
    Nat → List (Nat × Nat) → List Nat → Option (List Nat)
  | 0, _, _ => none
  | fuel + 1, queue, buf =>
    match queue.rotate (pick fuel) with
    | [] => some buf
    | (p, k) :: rest =>
      if (attemptData sha1 t loadRes p k).isEmpty then
        downloadLoop sha1 t loadRes pick fuel (rest ++ [(p, k + 1)]) buf
      else
        downloadLoop sha1 t loadRes pick fuel rest
          (writeAt buf (p * t.pieceLength) (attemptData sha1 t loadRes p k))

/-- Torrent::download's piece phase, src/torrent.rs lines 183-200: all pieces
are enqueued, `file_bytes` starts as `vec![0u8; total_length]`, and the join
loop runs to completion. -/
def download (sha1 : List Nat → List Nat) (t : TorrentMeta)
    (loadRes : Nat → Nat → Option (List Nat)) (pick : Nat → Nat)
    (fuel : Nat) : Option (List Nat) :=
  downloadLoop sha1 t loadRes pick fuel
    ((List.range (pieceCount t)).map fun p => (p, 0))
    (List.replicate t.totalLength 0)

/-- The loop invariant of the verification argument for `downloadLoop`: the
buffer keeps its full length, every queued piece index is in range, and every
piece is either still pending in the queue or already hash-verified in the
buffer. -/
def loopInv (sha1 : List Nat → List Nat) (t : TorrentMeta)
    (queue : List (Nat × Nat)) (buf : List Nat) : Prop :=
  buf.length = t.totalLength ∧
  (∀ pk ∈ queue, pk.1 < pieceCount t) ∧
  (∀ p, p < pieceCount t →
    (∃ k, (p, k) ∈ queue) ∨
    sha1 (slice buf (p * t.pieceLength) (pieceSize t p)) =
      t.pieceHashes.getD p [])

/-! ## Magnet URIs, src/magnet.rs and the tracker-URL unwraps -/

/-- Hex digit value (the hex crate's per-character decoding). -/
def hexDigitVal (c : Nat) : Option Nat :=
  if 48 ≤ c ∧ c ≤ 57 then some (c - 48)
  else if 97 ≤ c ∧ c ≤ 102 then some (c - 87)
  else if 65 ≤ c ∧ c ≤ 70 then some (c - 55)
  else none

/-- `hex::decode`: pairs of hex digits to bytes; odd length or a non-hex
character is an error. -/
def hexDecode : List Nat → Option (List Nat)
  | [] => some []
  | [_] => none
  | c1 :: c2 :: rest =>
    match hexDigitVal c1 with
    | none => none
    | some h =>
      match hexDigitVal c2 with
      | none => none
      | some l =>
        match hexDecode rest with
        | none => none
        | some tl => some ((h * 16 + l) :: tl)

/-- The bytes of `"urn:btih:"` (MAGNET_XT_PREFIX, src/magnet.rs line 9). -/
def btihMarker : List Nat := [117, 114, 110, 58, 98, 116, 105, 104, 58]

/-- The bytes of the query keys `xt`, `dn`, `tr`. -/
def xtKey : List Nat := [120, 116]

def dnKey : List Nat := [100, 110]

def trKey : List Nat := [116, 114]

/-- Lookup of a query parameter among the decoded query pairs
(`url.query_pairs().collect::<HashMap<_, _>>()` then `get`). -/
def lookupParam (pairs : List (List Nat × List Nat)) (k : List Nat) :
    Option (List Nat) :=
  match pairs with
  | [] => none
  | (k2, v) :: rest => if k2 = k then some v else lookupParam rest k

structure Magnet where
  info_hash : List Nat
  file_name : Option (List Nat)
  tracker_url : Option (List Nat)
deriving DecidableEq

inductive MagnetError where
  | missingXt
  | invalidXt
  | badHex
  | badLength
deriving DecidableEq

/-- Magnet::new, src/magnet.rs lines 18-41, on the query pairs of a
magnet-scheme URL: require `xt`, require the `urn:btih:` marker, hex-decode
the remainder into exactly 20 bytes; `dn` and `tr` are optional (`tr` is kept
as the raw URL text; `Url::parse` of it is not modelled). -/
def Magnet.new (pairs : List (List Nat × List Nat)) :
    Except MagnetError Magnet :=
  match lookupParam pairs xtKey with
  | none => Except.error MagnetError.missingXt
  | some xt =>
    if xt.take 9 = btihMarker then
      match hexDecode (xt.drop 9) with
      | none => Except.error MagnetError.badHex
      | some ih =>
        if ih.length = 20 then
          Except.ok
            { info_hash := ih
              file_name := lookupParam pairs dnKey
              tracker_url := lookupParam pairs trKey }
        else Except.error MagnetError.badLength
    else Except.error MagnetError.invalidXt

/-- The magnet_parse command, src/main.rs lines 116-120: prints
`magnet.tracker_url.unwrap()` and the info hash.  `none` is the panic of the
unwrap. -/
def magnetParseOutput (m : Magnet) : Option (List Nat × List Nat) :=
  m.tracker_url.map fun t => (t, m.info_hash)

/-- The tracker URL used by Magnet::get_peer_addrs, src/magnet.rs line 49:
`self.tracker_url.as_ref().unwrap()`.  `none` is the panic of the unwrap. -/
def Magnet.getPeerAddrsUrl (m : Magnet) : Option (List Nat) :=
  m.tracker_url

/-- Torrent::from_magnet_and_metadata, src/torrent.rs lines 55-60:
`announce = magnet.tracker_url.unwrap()`.  `none` is the panic of the
unwrap; on a present URL the torrent is assembled from it and the metadata. -/
def fromMagnetAndMetadata (m : Magnet) (metadata : TorrentMeta) :
    Option (List Nat × TorrentMeta) :=
  m.tracker_url.map fun t => (t, metadata)

/-! ## Bencode codec

Modelled from the spec: the codec itself lives in the external serde_bencode
crate (src/decode.rs and Torrent::info_hash only delegate to it), so `bdecode`
and `bencode` below follow the specification's section 4.1: four value kinds;
`decode` rejects malformed length prefixes, unterminated elements, integers
with a leading zero (except `i0e`), negative zero, and non-canonical
(non-ascending) dictionary key order; `encode` emits the canonical form. -/

inductive Bval where
  | bstr : List Nat → Bval
  | bint : Int → Bval
  | blist : List Bval → Bval
  | bdict : List (List Nat × Bval) → Bval

/-- ASCII decimal digit test. -/
def isDigit (c : Nat) : Bool := decide (48 ≤ c) && decide (c ≤ 57)

/-- Numeric value of an ASCII decimal digit string. -/
def digitsVal (ds : List Nat) : Nat :=
  ds.foldl (fun a d => a * 10 + (d - 48)) 0

/-- A canonical decimal representation: nonempty, all digits, and no leading
zero (except the single digit `0` itself). -/
def canonicalDigits (ds : List Nat) : Bool :=
  !ds.isEmpty && ds.all isDigit && (!decide (ds.headD 0 = 48) || decide (ds.length = 1))

/-- Fuel-bounded ASCII decimal rendering of a natural number (most
significant digit first); `natDigits` supplies always-sufficient fuel. -/
def natDigitsAux : Nat → Nat → List Nat
  | 0, _ => []
  | fuel + 1, n =>
    if n < 10 then [48 + n] else natDigitsAux fuel (n / 10) ++ [48 + n % 10]

def natDigits (n : Nat) : List Nat := natDigitsAux (n + 1) n

/-- Canonical digits of an integer, with `-` for negatives. -/
def intDigits (i : Int) : List Nat :=
  if i < 0 then 45 :: natDigits i.natAbs else natDigits i.toNat

mutual

/-- Bencode encoding: `len:bytes`, `i<digits>e`, `l...e`, `d...e`. -/
def bencode : Bval → List Nat
  | .bstr s => natDigits s.length ++ 58 :: s
  | .bint i => 105 :: (intDigits i ++ [101])
  | .blist l => 108 :: (bencodeItems l ++ [101])
  | .bdict d => 100 :: (bencodeDict d ++ [101])

def bencodeItems : List Bval → List Nat
  | [] => []
  | v :: l => bencode v ++ bencodeItems l

def bencodeDict : List (List Nat × Bval) → List Nat
  | [] => []
  | (k, v) :: d => (natDigits k.length ++ 58 :: k) ++ (bencode v ++ bencodeDict d)

end

/-- After the digit span `ds` of a length prefix, expect `:` and then
`digitsVal ds` payload bytes. -/
def decodeStrBody (ds : List Nat) : List Nat → Option (List Nat × List Nat)
  | [] => none
  | c :: r =>
    if c = 58 then
      if digitsVal ds ≤ r.length then
        some (r.take (digitsVal ds), r.drop (digitsVal ds))
      else none
    else none

/-- Decode one byte string `len:bytes` at the head of the input; rejects a
malformed (empty or zero-led) length prefix and a too-short payload. -/
def decodeStrAt (x : List Nat) : Option (List Nat × List Nat) :=
  if canonicalDigits (x.takeWhile isDigit) then
    decodeStrBody (x.takeWhile isDigit) (x.dropWhile isDigit)
  else none

/-- After the digit span of a negative integer, expect the closing `e`. -/
def decodeIntNeg (ds : List Nat) : List Nat → Option (Int × List Nat)
  | [] => none
  | e :: r => if e = 101 then some (-(digitsVal ds : Int), r) else none

/-- After the digit span of a non-negative integer, expect the closing `e`. -/
def decodeIntPos (ds : List Nat) : List Nat → Option (Int × List Nat)
  | [] => none
  | e :: r => if e = 101 then some ((digitsVal ds : Int), r) else none

/-- Decode the body of an integer (after the `i`), up to and including the
closing `e`: an optional minus, then digits; leading zeros (except `0`
itself) and negative zero are rejected. -/
def decodeIntBody : List Nat → Option (Int × List Nat)
  | [] => none
  | c :: y =>
    if c = 45 then
      if (y.takeWhile isDigit).isEmpty ||
          decide ((y.takeWhile isDigit).headD 0 = 48) then none
      else decodeIntNeg (y.takeWhile isDigit) (y.dropWhile isDigit)
    else
      if canonicalDigits ((c :: y).takeWhile isDigit) then
        decodeIntPos ((c :: y).takeWhile isDigit) ((c :: y).dropWhile isDigit)
      else none

/-- Strict lexicographic order on raw key bytes. -/
def keyLt : List Nat → List Nat → Bool
  | [], [] => false
  | [], _ :: _ => true
  | _ :: _, [] => false
  | a :: as, b :: bs => decide (a < b) || (decide (a = b) && keyLt as bs)

/-- Ascending-order check of a dictionary key against the previous key. -/
def keyOk : Option (List Nat) → List Nat → Bool
  | none, _ => true
  | some p, k => keyLt p k

mutual

/-- Fuel-bounded bencode decoder for one value; returns the value and the
trailing unread bytes. -/
def decodeV : Nat → List Nat → Option (Bval × List Nat)
  | 0, _ => none
  | _ + 1, [] => none
  | fuel + 1, c :: y =>
    if c = 105 then (decodeIntBody y).map fun p => (Bval.bint p.1, p.2)
    else if c = 108 then (decodeItems fuel y).map fun p => (Bval.blist p.1, p.2)
    else if c = 100 then (decodePairs fuel none y).map fun p => (Bval.bdict p.1, p.2)
    else (decodeStrAt (c :: y)).map fun p => (Bval.bstr p.1, p.2)

/-- Decode list elements up to the closing `e`. -/
def decodeItems : Nat → List Nat → Option (List Bval × List Nat)
  | 0, _ => none
  | _ + 1, [] => none
  | fuel + 1, c :: y =>
    if c = 101 then some ([], y)
    else
      (decodeV fuel (c :: y)).bind fun vp =>
        (decodeItems fuel vp.2).bind fun lp =>
          some (vp.1 :: lp.1, lp.2)

/-- Decode dictionary entries up to the closing `e`, enforcing strictly
ascending key order relative to the previous key `prev`. -/
def decodePairs : Nat → Option (List Nat) → List Nat →
    Option (List (List Nat × Bval) × List Nat)
  | 0, _, _ => none
  | _ + 1, _, [] => none
  | fuel + 1, prev, c :: y =>
    if c = 101 then some ([], y)
    else
      (decodeStrAt (c :: y)).bind fun kp =>
        if keyOk prev kp.1 then
          (decodeV fuel kp.2).bind fun vp =>
            (decodePairs fuel (some kp.1) vp.2).bind fun dp =>
              some ((kp.1, vp.1) :: dp.1, dp.2)
        else none

end

/-- The top-level decoder (`decode(bytes) → Value` plus the trailing unread
bytes): the fuel is always sufficient because every recursive call consumes
at least one input byte. -/
def bdecode (x : List Nat) : Option (Bval × List Nat) :=
  decodeV (x.length + 1) x

/-! # Theorems -/

/-! ## C2: handshake reply verification -/

/-- C2 counterexample: Peer::handshake accepts a 68-byte reply whose echoed
info hash (bytes 28..48, here twenty `1`s) differs from the info hash that
was sent (twenty `0`s), returning a successful session that records the
reply's peer-id field; the claim says such a reply is never accepted. -/
theorem C2_counterexample :
    Peer.handshake (List.replicate 20 0)
      ([19] ++ protocolBytes ++ List.replicate 8 0 ++
        List.replicate 20 1 ++ List.replicate 20 2) =
      some { id := List.replicate 20 2 } ∧
    slice ([19] ++ protocolBytes ++ List.replicate 8 0 ++
        List.replicate 20 1 ++ List.replicate 20 2) 28 20 ≠
      List.replicate 20 0 := by
  exact ⟨by rfl, by decide⟩

/-- C2 amended: Peer::handshake performs no verification at all on the
68-byte reply — neither the protocol string nor the echoed info hash is
checked; any 68-byte reply is accepted and its last 20 bytes are recorded as
the remote peer id. -/
theorem C2_handshake_accepts_any_reply (info_hash reply : List Nat)
    (h : reply.length = 68) :
    Peer.handshake info_hash reply = some { id := reply.drop 48 } := by
  simp [Peer.handshake, h]

theorem C2_handshake_accepts_any_reply_witness :
    Peer.handshake (List.replicate 20 0) (List.replicate 68 3) =
      some { id := (List.replicate 68 3).drop 48 } :=
  C2_handshake_accepts_any_reply (List.replicate 20 0) (List.replicate 68 3)
    (by decide)

/-! ## C3: extension bit in the sent handshake -/

/-- C3 counterexample: in the handshake Peer::handshake sends, reserved byte 5
(byte 25 of the 68-byte frame) is 0, not 0x10 — the extension bit is not
set. -/
theorem C3_counterexample :
    (sentHandshakeBytes (List.replicate 20 0)).getD 25 0 = 0 ∧
    (Handshake.new (List.replicate 20 0) peerIdBytes).reserved.getD 5 0 ≠ 16 := by
  exact ⟨by decide, by decide⟩

/-- C3 amended: Handshake::new zeroes all eight reserved bytes and
Peer::handshake sends it unmodified, so reserved byte 5 of every outgoing
handshake is 0 — the client never advertises extension support. -/
theorem C3_reserved_all_zero (info_hash peer_id : List Nat) :
    (Handshake.new info_hash peer_id).reserved = List.replicate 8 0 ∧
    (sentHandshakeBytes info_hash).getD 25 0 = 0 := by
  constructor
  · rfl
  · simp [sentHandshakeBytes, Handshake.toBytes, Handshake.new, protocolBytes,
      List.replicate, List.getD]

theorem C3_reserved_all_zero_witness :
    (Handshake.new (List.replicate 20 7) peerIdBytes).reserved =
      List.replicate 8 0 ∧
    (sentHandshakeBytes (List.replicate 20 7)).getD 25 0 = 0 :=
  C3_reserved_all_zero (List.replicate 20 7) peerIdBytes

/-! ## C4: readiness exchange -/

/-- C4 counterexample: a session whose first message is BITFIELD followed by
UNCHOKE fails the readiness exchange — the non-UNCHOKE message is not
skipped, contrary to the claim that readiness succeeds once UNCHOKE
arrives. -/
theorem C4_counterexample :
    Peer.loadPieceReadiness
      [{ id := MessageTag.BITFIELD, payload := [] },
       { id := MessageTag.UNCHOKE, payload := [] }] = none ∧
    ({ id := MessageTag.UNCHOKE, payload := [] } : Message) ∈
      [({ id := MessageTag.BITFIELD, payload := [] } : Message),
       { id := MessageTag.UNCHOKE, payload := [] }] := by
  exact ⟨by rfl, by decide⟩

/-- C4 amended: the readiness exchange at the start of Peer::load_piece reads
exactly one message and succeeds iff that first message is UNCHOKE; any other
first message is a session error and no later message is examined. -/
theorem C4_readiness_first_message_only (m : Message) (rest : List Message) :
    ((Peer.loadPieceReadiness (m :: rest)).isSome ↔
      m.id = MessageTag.UNCHOKE) ∧
    Peer.loadPieceReadiness ([] : List Message) = none := by
  constructor
  · by_cases h : m.id = MessageTag.UNCHOKE <;> simp [Peer.loadPieceReadiness, h]
  · rfl

theorem C4_readiness_first_message_only_witness :
    ((Peer.loadPieceReadiness
        [{ id := MessageTag.UNCHOKE, payload := [] }]).isSome ↔
      ({ id := MessageTag.UNCHOKE, payload := [] } : Message).id =
        MessageTag.UNCHOKE) ∧
    Peer.loadPieceReadiness ([] : List Message) = none :=
  C4_readiness_first_message_only { id := MessageTag.UNCHOKE, payload := [] } []

/-! ## C5: block fetch reply validation -/

/-- C5 counterexample: for the request (index 0, begin 0, length 1), a PIECE
reply whose payload carries index 9 and begin 9 is accepted and its data
bytes returned, and a non-PIECE first reply is an error rather than being
ignored — both contrary to the claim. -/
theorem C5_counterexample :
    Peer.loadBlockData 0 0 1
      [{ id := MessageTag.PIECE, payload := be32 9 ++ be32 9 ++ [42] }] =
      some [42] ∧
    Peer.loadBlockData 0 0 1
      [{ id := MessageTag.BITFIELD, payload := [] },
       { id := MessageTag.PIECE, payload := be32 0 ++ be32 0 ++ [42] }] =
      none := by
  exact ⟨by rfl, by rfl⟩

/-- C5 amended: Peer::load_block reads exactly one message and succeeds iff
it is a PIECE; on success the payload bytes after the first 8 are returned
with no check that the payload's index and begin fields match the request
(the request parameters affect only the sent REQUEST payload). -/
theorem C5_block_reply_unchecked (index begin length : Nat) (m : Message)
    (rest : List Message) :
    ((Peer.loadBlockData index begin length (m :: rest)).isSome ↔
      m.id = MessageTag.PIECE) ∧
    (m.id = MessageTag.PIECE →
      Peer.loadBlockData index begin length (m :: rest) =
        some (m.payload.drop 8)) := by
  constructor
  · by_cases h : m.id = MessageTag.PIECE <;>
      simp [Peer.loadBlockData, Peer.loadBlock, h]
  · intro h; simp [Peer.loadBlockData, Peer.loadBlock, h]

theorem C5_block_reply_unchecked_witness :
    Peer.loadBlockData 1 2 3
      [{ id := MessageTag.PIECE, payload := [9, 9, 9, 9, 9, 9, 9, 9, 7] }] =
      some [7] :=
  (C5_block_reply_unchecked 1 2 3
    { id := MessageTag.PIECE, payload := [9, 9, 9, 9, 9, 9, 9, 9, 7] } []).2 rfl

/-! ## C9: unknown message ids in Peer::recv -/

/-- C9: the claim (and the spec's receiver contract) says unknown ids are
logged and skipped; instead Peer::recv transmutes the received byte into
MessageTag unchecked, so a byte outside {1,2,5,6,7} — e.g. HAVE = 4,
CHOKE = 0 or EXTENDED = 20 — produces an invalid enum value (undefined
behavior, modelled as `none`); there is no skip path. -/
theorem C9_unknown_id_invalid_tag :
    Peer.recv { idByte := 4, payload := [] } = none ∧
    byteToTag 0 = none ∧ byteToTag 20 = none ∧
    byteToTag 1 = some MessageTag.UNCHOKE := by
  exact ⟨by rfl, by rfl, by rfl, by rfl⟩

/-! ## C6: availability check before scheduling -/

/-- Helper: scheduling panics (unwrap of None) as soon as it reaches a piece
with no holder. -/
theorem scheduleAll_eq_none (ppm : List (Nat × List Peer)) (pick : Nat → Nat)
    (p : Nat) (l : List Nat) (hp : p ∈ l) (hmiss : lookupPieces ppm p = none) :
    scheduleAll ppm pick l = none := by
  induction l with
  | nil => cases hp
  | cons q rest ih =>
    rcases List.mem_cons.mp hp with h | h
    · subst h
      simp [scheduleAll, choosePeer, hmiss]
    · simp only [scheduleAll]
      cases choosePeer ppm (pick q) q with
      | none => rfl
      | some x => rw [ih h]

/-- C6 counterexample: with `peer_piece_map = {0 ↦ [one peer]}` and two
pieces, piece 1 has no holder, yet download's only pre-scheduling check
(`peer_piece_map.is_empty()`) passes and scheduling reaches the
`unwrap()` panic (the inner `none`) instead of failing with an availability
error — contrary to the claim. -/
theorem C6_counterexample :
    downloadSetup [(0, [{ id := [7] }])] (fun _ => 0) 2 = Except.ok none ∧
    lookupPieces [(0, [{ id := [7] }])] 1 = none := by
  exact ⟨by rfl, by rfl⟩

/-- C6 amended: Torrent::download fails before scheduling only when
`peer_piece_map` is empty (no piece has any holder); when the map is
nonempty but some piece below `num_pieces` has no holder, the check passes
and the scheduling loop panics on `unwrap` at that piece. -/
theorem C6_empty_check_only (ppm : List (Nat × List Peer)) (pick : Nat → Nat)
    (n p : Nat) (hne : ppm ≠ []) (hp : p < n)
    (hmiss : lookupPieces ppm p = none) :
    downloadSetup ppm pick n = Except.ok none ∧
    downloadSetup ([] : List (Nat × List Peer)) pick n = Except.error () := by
  constructor
  · have hne2 : ppm.isEmpty = false := by
      cases ppm with
      | nil => exact absurd rfl hne
      | cons a l => rfl
    simp only [downloadSetup, hne2, Bool.false_eq_true, if_false]
    rw [scheduleAll_eq_none ppm pick p (List.range n) (List.mem_range.mpr hp) hmiss]
  · rfl

theorem C6_empty_check_only_witness :
    downloadSetup [(0, [{ id := [7] }])] (fun _ => 0) 2 = Except.ok none ∧
    downloadSetup ([] : List (Nat × List Peer)) (fun _ => 0) 2 =
      Except.error () :=
  C6_empty_check_only [(0, [{ id := [7] }])] (fun _ => 0) 2 1 (by decide)
    (by decide) (by rfl)

/-! ## C10: magnet URIs without a tracker parameter -/

/-- C10: a magnet URI with a valid `xt` but no `tr` parses successfully with
`tracker_url = None`, and every operation that unwraps the tracker URL —
the magnet_parse output, Magnet::get_peer_addrs and
Torrent::from_magnet_and_metadata — panics (`none`) instead of returning an
error value. -/
theorem C10_missing_tr_panics (pairs : List (List Nat × List Nat))
    (m : Magnet) (htr : lookupParam pairs trKey = none)
    (hok : Magnet.new pairs = Except.ok m) :
    m.tracker_url = none ∧ magnetParseOutput m = none ∧
    m.getPeerAddrsUrl = none ∧
    ∀ metadata, fromMagnetAndMetadata m metadata = none := by
  have htr2 : m.tracker_url = none := by
    unfold Magnet.new at hok
    cases hxt : lookupParam pairs xtKey with
    | none =>
      simp only [hxt] at hok
      exact (Except.noConfusion hok)
    | some xt =>
      simp only [hxt] at hok
      by_cases h9 : xt.take 9 = btihMarker
      · simp only [h9, if_true] at hok
        cases hhex : hexDecode (xt.drop 9) with
        | none =>
          simp only [hhex] at hok
          exact (Except.noConfusion hok)
        | some ih =>
          simp only [hhex] at hok
          by_cases hlen : ih.length = 20
          · simp only [hlen, if_true, Except.ok.injEq] at hok
            rw [← hok]
            exact htr
          · simp only [hlen, if_false] at hok
            exact (Except.noConfusion hok)
      · simp only [h9, if_false] at hok
        exact (Except.noConfusion hok)
  refine ⟨htr2, ?_, ?_, ?_⟩
  · simp [magnetParseOutput, htr2]
  · simp [Magnet.getPeerAddrsUrl, htr2]
  · intro metadata; simp [fromMagnetAndMetadata, htr2]

theorem C10_missing_tr_panics_witness :
    ({ info_hash := List.replicate 20 0, file_name := none,
       tracker_url := none } : Magnet).tracker_url = none ∧
    magnetParseOutput
      { info_hash := List.replicate 20 0, file_name := none,
        tracker_url := none } = none ∧
    Magnet.getPeerAddrsUrl
      { info_hash := List.replicate 20 0, file_name := none,
        tracker_url := none } = none ∧
    fromMagnetAndMetadata
      { info_hash := List.replicate 20 0, file_name := none,
        tracker_url := none }
      (TorrentMeta.mk 1 1 []) = none := by
  have h := C10_missing_tr_panics
    [(xtKey, btihMarker ++ List.replicate 40 48)]
    { info_hash := List.replicate 20 0, file_name := none,
      tracker_url := none } (by rfl) (by rfl)
  exact ⟨h.1, h.2.1, h.2.2.1, h.2.2.2 (TorrentMeta.mk 1 1 [])⟩

/-! ## C7: piece sizes -/

/-- Helper: partial sums of the per-piece size formula. -/
theorem sum_min_piece (L T : Nat) (n : Nat) :
    ∑ i ∈ Finset.range n, min L (T - i * L) = min T (n * L) := by
  induction n with
  | zero => simp
  | succ k ih =>
    rw [Finset.sum_range_succ, ih, Nat.succ_mul]
    omega

/-- Helper: the ceiling division `(T + L - 1) / L` times `L` covers `T`. -/
theorem ceil_mul_ge (L T : Nat) (hL : 0 < L) :
    T ≤ ((T + L - 1) / L) * L := by
  have h1 := Nat.div_add_mod (T + L - 1) L
  have h2 := Nat.mod_lt (T + L - 1) hL
  have h3 : ((T + L - 1) / L) * L = L * ((T + L - 1) / L) := Nat.mul_comm _ _
  omega

/-- Helper: every piece index below the ceiling count starts strictly inside
the content. -/
theorem lt_ceil_mul (L T p : Nat) (hL : 0 < L) (hp : p < (T + L - 1) / L) :
    p * L < T := by
  have h3 : ((T + L - 1) / L) * L ≤ T + L - 1 := Nat.div_mul_le_self _ _
  have h4 : (p + 1) * L ≤ ((T + L - 1) / L) * L :=
    Nat.mul_le_mul_right _ hp
  have h5 : (p + 1) * L = p * L + L := by ring
  omega

/-- C7: for a well-formed torrent (positive piece length, hash count equal to
the ceiling of total length over piece length), the per-piece size
`min(piece_length, total_length - i * piece_length)` is at most the piece
length for every piece index, and the sizes sum to the total length. -/
theorem C7_piece_size_bound_and_sum (t : TorrentMeta)
    (hL : 0 < t.pieceLength)
    (hn : pieceCount t = (t.totalLength + t.pieceLength - 1) / t.pieceLength) :
    (∀ i, i < pieceCount t → pieceSize t i ≤ t.pieceLength) ∧
    ∑ i ∈ Finset.range (pieceCount t), pieceSize t i = t.totalLength := by
  constructor
  · intro i _
    exact Nat.min_le_left _ _
  · simp only [pieceSize]
    rw [sum_min_piece t.pieceLength t.totalLength (pieceCount t)]
    refine Nat.min_eq_left ?_
    rw [hn]
    exact ceil_mul_ge t.pieceLength t.totalLength hL

theorem C7_piece_size_bound_and_sum_witness :
    pieceSize (TorrentMeta.mk 2 3 [[0], [0]]) 1 ≤
      (TorrentMeta.mk 2 3 [[0], [0]]).pieceLength ∧
    ∑ i ∈ Finset.range (pieceCount (TorrentMeta.mk 2 3 [[0], [0]])),
      pieceSize (TorrentMeta.mk 2 3 [[0], [0]]) i = 3 := by
  have h := C7_piece_size_bound_and_sum (TorrentMeta.mk 2 3 [[0], [0]])
    (by decide) (by decide)
  exact ⟨h.1 1 (by decide), h.2⟩

/-! ## C1: the orchestrator writes only verified pieces -/

/-- Helper: a write that fits inside the buffer preserves its length. -/
theorem length_writeAt (buf d : List Nat) (s : Nat)
    (h : s + d.length ≤ buf.length) :
    (writeAt buf s d).length = buf.length := by
  simp [writeAt]
  omega

/-- Helper: reading back the exact range just written yields the data. -/
theorem slice_writeAt_self (buf d : List Nat) (s : Nat)
    (h : s + d.length ≤ buf.length) :
    slice (writeAt buf s d) s d.length = d := by
  have hts : (buf.take s).length = s := by
    rw [List.length_take]; omega
  simp only [slice, writeAt, List.append_assoc]
  rw [List.drop_append_eq_append_drop, hts,
    List.drop_eq_nil_of_le (le_of_eq hts), Nat.sub_self, List.drop_zero,
    List.nil_append, List.take_left]

/-- Helper: a write leaves every range that ends before it unchanged. -/
theorem slice_writeAt_before (buf d : List Nat) (s s2 n2 : Nat)
    (h : s2 + n2 ≤ s) (hs : s ≤ buf.length) :
    slice (writeAt buf s d) s2 n2 = slice buf s2 n2 := by
  have hts : (buf.take s).length = s := by rw [List.length_take]; omega
  simp only [slice, writeAt, List.append_assoc]
  rw [List.drop_append_eq_append_drop, hts,
    Nat.sub_eq_zero_of_le (by omega : s2 ≤ s), List.drop_zero,
    List.take_append_eq_append_take]
  have hlen2 : ((buf.take s).drop s2).length = s - s2 := by
    rw [List.length_drop, hts]
  rw [hlen2, Nat.sub_eq_zero_of_le (by omega : n2 ≤ s - s2), List.take_zero,
    List.append_nil, List.drop_take, List.take_take,
    Nat.min_eq_left (by omega : n2 ≤ s - s2)]

/-- Helper: a write leaves every range that starts after it unchanged. -/
theorem slice_writeAt_after (buf d : List Nat) (s s2 n2 : Nat)
    (h : s + d.length ≤ s2) (hs : s ≤ buf.length) :
    slice (writeAt buf s d) s2 n2 = slice buf s2 n2 := by
  have hts : (buf.take s).length = s := by rw [List.length_take]; omega
  simp only [slice, writeAt, List.append_assoc]
  rw [List.drop_append_eq_append_drop, hts,
    List.drop_eq_nil_of_le (by omega : (buf.take s).length ≤ s2),
    List.nil_append, List.drop_append_eq_append_drop,
    List.drop_eq_nil_of_le (by omega : d.length ≤ s2 - s),
    List.nil_append, List.drop_drop]
  have hidx : s + d.length + (s2 - s - d.length) = s2 := by omega
  rw [hidx]

/-- Helper: the downloadLoop invariant is sound — if the loop terminates with
a buffer, every piece range of that buffer is hash-verified. -/
theorem downloadLoop_verified (sha1 : List Nat → List Nat) (t : TorrentMeta)
    (loadRes : Nat → Nat → Option (List Nat)) (pick : Nat → Nat)
    (hL : 0 < t.pieceLength)
    (hn : pieceCount t = (t.totalLength + t.pieceLength - 1) / t.pieceLength)
    (hlen : ∀ p, p < pieceCount t → ∀ k d, loadRes p k = some d →
      d.length = pieceSize t p) :
    ∀ fuel queue buf out, loopInv sha1 t queue buf →
      downloadLoop sha1 t loadRes pick fuel queue buf = some out →
      ∀ p, p < pieceCount t →
        sha1 (slice out (p * t.pieceLength) (pieceSize t p)) =
          t.pieceHashes.getD p [] := by
  intro fuel
  induction fuel with
  | zero =>
    intro queue buf out _ hrun
    exact absurd hrun (by simp [downloadLoop])
  | succ f ih =>
    intro queue buf out hinv hrun
    obtain ⟨hblen, hq, hver⟩ := hinv
    cases hrot : queue.rotate (pick f) with
    | nil =>
      simp only [downloadLoop, hrot] at hrun
      intro p hp
      rcases hver p hp with ⟨k, hk⟩ | hdone
      · have : (p, k) ∈ queue.rotate (pick f) := List.mem_rotate.mpr hk
        rw [hrot] at this
        cases this
      · rw [← Option.some.inj hrun]
        exact hdone
    | cons pk rest =>
      obtain ⟨p0, k0⟩ := pk
      simp only [downloadLoop, hrot] at hrun
      have hpkmem : (p0, k0) ∈ queue :=
        List.mem_rotate.mp (hrot ▸ List.mem_cons_self (p0, k0) rest)
      have hrestmem : ∀ pk2, pk2 ∈ rest → pk2 ∈ queue := by
        intro pk2 hpk2
        exact List.mem_rotate.mp (hrot ▸ List.mem_cons_of_mem _ hpk2)
      have hp0 : p0 < pieceCount t := hq _ hpkmem
      by_cases hdat : (attemptData sha1 t loadRes p0 k0).isEmpty
      · rw [if_pos hdat] at hrun
        refine ih (rest ++ [(p0, k0 + 1)]) buf out ⟨hblen, ?_, ?_⟩ hrun
        · intro pk2 hpk2
          rcases List.mem_append.mp hpk2 with h2 | h2
          · exact hq _ (hrestmem _ h2)
          · rcases List.mem_singleton.mp h2 with rfl
            exact hp0
        · intro p hp
          rcases hver p hp with ⟨k, hk⟩ | hdone
          · left
            have : (p, k) ∈ queue.rotate (pick f) := List.mem_rotate.mpr hk
            rw [hrot] at this
            rcases List.mem_cons.mp this with h2 | h2
            · have h3 : p = p0 := congrArg Prod.fst h2
              subst h3
              exact ⟨k0 + 1, List.mem_append.mpr (Or.inr (List.mem_singleton.mpr rfl))⟩
            · exact ⟨k, List.mem_append.mpr (Or.inl h2)⟩
          · right; exact hdone
      · rw [if_neg hdat] at hrun
        -- a nonempty attempt result is oracle data that passed the hash check
        obtain ⟨d, hload, hdata, hhash⟩ :
            ∃ d, loadRes p0 k0 = some d ∧
              attemptData sha1 t loadRes p0 k0 = d ∧
              sha1 d = t.pieceHashes.getD p0 [] := by
          cases hload : loadRes p0 k0 with
          | none => simp [attemptData, hload] at hdat
          | some d =>
            simp only [attemptData, hload] at hdat ⊢
            by_cases hne : t.pieceHashes.getD p0 [] ≠ sha1 d
            · rw [if_pos hne] at hdat
              simp at hdat
            · rw [if_neg hne]
              exact ⟨d, rfl, rfl, (not_ne_iff.mp hne).symm⟩
        have hdlen : d.length = pieceSize t p0 := hlen p0 hp0 k0 d hload
        have hstart : p0 * t.pieceLength < t.totalLength := by
          refine lt_ceil_mul t.pieceLength t.totalLength p0 hL ?_
          rw [← hn]; exact hp0
        have hfit : p0 * t.pieceLength + d.length ≤ buf.length := by
          rw [hblen, hdlen]
          have : pieceSize t p0 ≤ t.totalLength - p0 * t.pieceLength :=
            Nat.min_le_right _ _
          omega
        rw [hdata] at hrun
        refine ih rest (writeAt buf (p0 * t.pieceLength) d) out
          ⟨?_, ?_, ?_⟩ hrun
        · rw [length_writeAt buf d _ hfit]; exact hblen
        · intro pk2 hpk2; exact hq _ (hrestmem _ hpk2)
        · intro p hp
          by_cases hpp : p = p0
          · subst hpp
            right
            rw [← hdlen, slice_writeAt_self buf d _ hfit, hhash]
          · rcases hver p hp with ⟨k, hk⟩ | hdone
            · left
              have : (p, k) ∈ queue.rotate (pick f) := List.mem_rotate.mpr hk
              rw [hrot] at this
              rcases List.mem_cons.mp this with h2 | h2
              · exact absurd (congrArg Prod.fst h2) hpp
              · exact ⟨k, h2⟩
            · right
              have hsizep : pieceSize t p ≤ t.pieceLength := Nat.min_le_left _ _
              have hsizep0 : pieceSize t p0 ≤ t.pieceLength := Nat.min_le_left _ _
              rcases Nat.lt_or_ge p p0 with hlt | hge
              · rw [slice_writeAt_before buf d (p0 * t.pieceLength)
                  (p * t.pieceLength) (pieceSize t p) ?_ (by omega)]
                · exact hdone
                · have : (p + 1) * t.pieceLength ≤ p0 * t.pieceLength :=
                    Nat.mul_le_mul_right _ hlt
                  have h5 : (p + 1) * t.pieceLength =
                      p * t.pieceLength + t.pieceLength := by ring
                  omega
              · have hgt : p0 < p := lt_of_le_of_ne hge fun h => hpp h.symm
                rw [slice_writeAt_after buf d (p0 * t.pieceLength)
                  (p * t.pieceLength) (pieceSize t p) ?_ (by omega)]
                · exact hdone
                · have : (p0 + 1) * t.pieceLength ≤ p * t.pieceLength :=
                    Nat.mul_le_mul_right _ hgt
                  have h5 : (p0 + 1) * t.pieceLength =
                      p0 * t.pieceLength + t.pieceLength := by ring
                  omega

/-- C1: whenever Torrent::download's piece loop terminates with a buffer,
every piece-p range of that buffer (at offset `p * piece_length`, of the
piece's size) hashes to `piece_hash(p)` — data reaches `file_bytes` only
after SHA-1 verification, and failed or mismatching pieces are re-enqueued
rather than written.  The network is an oracle `loadRes` giving each
attempt's `load_piece` result (always of the piece's length), `pick` resolves
the nondeterministic join order, and `sha1` is the abstract hash. -/
theorem C1_download_only_verified_pieces (sha1 : List Nat → List Nat)
    (t : TorrentMeta) (loadRes : Nat → Nat → Option (List Nat))
    (pick : Nat → Nat) (fuel : Nat) (out : List Nat)
    (hL : 0 < t.pieceLength)
    (hn : pieceCount t = (t.totalLength + t.pieceLength - 1) / t.pieceLength)
    (hlen : ∀ p, p < pieceCount t → ∀ k d, loadRes p k = some d →
      d.length = pieceSize t p)
    (hrun : download sha1 t loadRes pick fuel = some out) :
    ∀ p, p < pieceCount t →
      sha1 (slice out (p * t.pieceLength) (pieceSize t p)) =
        t.pieceHashes.getD p [] := by
  refine downloadLoop_verified sha1 t loadRes pick hL hn hlen fuel
    ((List.range (pieceCount t)).map fun p => (p, 0))
    (List.replicate t.totalLength 0) out ⟨by simp, ?_, ?_⟩ hrun
  · intro pk hpk
    rcases List.mem_map.mp hpk with ⟨p, hp, rfl⟩
    exact List.mem_range.mp hp
  · intro p hp
    left
    exact ⟨0, List.mem_map.mpr ⟨p, List.mem_range.mpr hp, rfl⟩⟩

theorem C1_download_only_verified_pieces_witness :
    download id (TorrentMeta.mk 1 1 [[5]]) (fun _ _ => some [5])
      (fun _ => 0) 2 = some [5] ∧
    id (slice [5] (0 * 1) (pieceSize (TorrentMeta.mk 1 1 [[5]]) 0)) =
      [[5]].getD 0 [] := by
  constructor
  · rfl
  · refine C1_download_only_verified_pieces id (TorrentMeta.mk 1 1 [[5]])
      (fun _ _ => some [5]) (fun _ => 0) 2 [5] (by decide) (by decide)
      ?_ (by rfl) 0 (by decide)
    intro p hp k d h
    have hd : d = [5] := (Option.some.inj h).symm
    have hp1 : p < 1 := by simpa [pieceCount] using hp
    have hp0 : p = 0 := by omega
    subst hp0
    rw [hd]
    rfl

/-! ## C8: bencode round trip — decimal digit lemmas -/

/-- Helper: the fuel of `natDigitsAux` is irrelevant once sufficient. -/
theorem natDigitsAux_irrel : ∀ f1 f2 n : Nat, n < f1 → n < f2 →
    natDigitsAux f1 n = natDigitsAux f2 n := by
  intro f1
  induction f1 with
  | zero => intro f2 n h1 _; omega
  | succ g1 ih =>
    intro f2 n h1 h2
    cases f2 with
    | zero => omega
    | succ g2 =>
      simp only [natDigitsAux]
      by_cases h : n < 10
      · simp [h]
      · simp only [if_neg h]
        have hd : n / 10 < n := Nat.div_lt_self (by omega) (by omega)
        rw [ih g2 (n / 10) (by omega) (by omega)]

/-- Helper: single-digit rendering. -/
theorem natDigits_small (m : Nat) (h : m < 10) : natDigits m = [48 + m] := by
  show natDigitsAux (m + 1) m = [48 + m]
  rw [natDigitsAux, if_pos h]

/-- Helper: the recursive step of decimal rendering. -/
theorem natDigits_step (m : Nat) (h : 10 ≤ m) :
    natDigits m = natDigits (m / 10) ++ [48 + m % 10] := by
  show natDigitsAux (m + 1) m = natDigitsAux (m / 10 + 1) (m / 10) ++ [48 + m % 10]
  rw [natDigitsAux, if_neg (by omega)]
  congr 1
  exact natDigitsAux_irrel m (m / 10 + 1) (m / 10)
    (Nat.div_lt_self (by omega) (by omega)) (Nat.lt_succ_self _)

/-- Helper: the value of a digit string with one digit appended. -/
theorem digitsVal_append (ds : List Nat) (d : Nat) :
    digitsVal (ds ++ [d]) = digitsVal ds * 10 + (d - 48) := by
  simp [digitsVal, List.foldl_append]

/-- Helper: the digit-value fold never shrinks a positive accumulator. -/
theorem foldl_digits_ge (t : List Nat) : ∀ acc, 1 ≤ acc →
    1 ≤ t.foldl (fun a d => a * 10 + (d - 48)) acc := by
  induction t with
  | nil => intro acc h; simpa using h
  | cons d rest ih =>
    intro acc h
    simp only [List.foldl_cons]
    exact ih (acc * 10 + (d - 48)) (by omega)

/-- Helper: a digit string with a nonzero leading digit has positive value. -/
theorem digitsVal_pos (ds : List Nat) (hne : ds ≠ [])
    (hd : ds.all isDigit = true) (hh : ds.headD 0 ≠ 48) :
    0 < digitsVal ds := by
  cases ds with
  | nil => exact absurd rfl hne
  | cons a t =>
    simp only [digitsVal, List.foldl_cons]
    have ha : isDigit a = true :=
      List.all_eq_true.mp hd a (List.mem_cons_self a t)
    have h48 : 48 ≤ a ∧ a ≤ 57 := by
      simpa [isDigit, Bool.and_eq_true, decide_eq_true_eq] using ha
    have ha48 : a ≠ 48 := by simpa using hh
    exact foldl_digits_ge t (0 * 10 + (a - 48)) (by omega)

/-- Helper: rendering the value of a canonical digit string gives it back. -/
theorem canonicalDigits_roundtrip : ∀ ds, canonicalDigits ds = true →
    natDigits (digitsVal ds) = ds := by
  intro ds
  induction ds using List.reverseRecOn with
  | nil => intro h; simp [canonicalDigits] at h
  | append_singleton as d ih =>
    intro h
    have hall : (as ++ [d]).all isDigit = true := by
      simp only [canonicalDigits, Bool.and_eq_true] at h
      exact h.1.2
    have hded : isDigit d = true := by
      have := List.all_eq_true.mp hall d (by simp)
      exact this
    have hd48 : 48 ≤ d ∧ d ≤ 57 := by
      simpa [isDigit, Bool.and_eq_true, decide_eq_true_eq] using hded
    cases as with
    | nil =>
      rw [digitsVal_append]
      have h0 : digitsVal [] * 10 + (d - 48) = d - 48 := by simp [digitsVal]
      rw [h0, natDigits_small (d - 48) (by omega)]
      have h1 : 48 + (d - 48) = d := by omega
      rw [h1]
      simp
    | cons a as2 =>
      have hhead : a ≠ 48 := by
        simp only [canonicalDigits, Bool.and_eq_true, Bool.or_eq_true,
          Bool.not_eq_true', decide_eq_true_eq] at h
        rcases h.2 with h2 | h2
        · simpa using h2
        · simp at h2
      have hca : canonicalDigits (a :: as2) = true := by
        have hall2 : (a :: as2).all isDigit = true := by
          rw [List.all_eq_true]
          intro y hy
          exact List.all_eq_true.mp hall y (List.mem_append_left _ hy)
        simp [canonicalDigits, hall2, hhead]
      have hva : 0 < digitsVal (a :: as2) :=
        digitsVal_pos (a :: as2) (by simp) (by
          rw [List.all_eq_true]
          intro y hy
          exact List.all_eq_true.mp hall y (List.mem_append_left _ hy))
          (by simpa using hhead)
      rw [digitsVal_append]
      have hdd : d - 48 < 10 := by omega
      have hbig : 10 ≤ digitsVal (a :: as2) * 10 + (d - 48) := by omega
      rw [natDigits_step _ hbig]
      have hdiv : (digitsVal (a :: as2) * 10 + (d - 48)) / 10 =
          digitsVal (a :: as2) := by omega
      have hmod : (digitsVal (a :: as2) * 10 + (d - 48)) % 10 = d - 48 := by
        omega
      rw [hdiv, hmod, ih hca]
      have : 48 + (d - 48) = d := by omega
      rw [this]

/-- Helper: the digits taken by `takeWhile isDigit` are all digits. -/
theorem takeWhile_all_digits (y : List Nat) :
    (y.takeWhile isDigit).all isDigit = true := by
  rw [List.all_eq_true]
  intro a ha
  exact List.mem_takeWhile_imp ha

/-- Helper: a successful string decode reproduces its input bytes. -/
theorem decodeStrAt_sound (x s r : List Nat)
    (h : decodeStrAt x = some (s, r)) :
    (natDigits s.length ++ 58 :: s) ++ r = x := by
  unfold decodeStrAt at h
  by_cases hc : canonicalDigits (x.takeWhile isDigit) = true
  · rw [if_pos hc] at h
    cases hm : x.dropWhile isDigit with
    | nil =>
      rw [hm] at h
      simp only [decodeStrBody] at h
      exact Option.noConfusion h
    | cons c r2 =>
      rw [hm] at h
      simp only [decodeStrBody] at h
      by_cases h58 : c = 58
      · rw [if_pos h58] at h
        by_cases hn : digitsVal (x.takeWhile isDigit) ≤ r2.length
        · rw [if_pos hn] at h
          simp only [Option.some.injEq, Prod.mk.injEq] at h
          obtain ⟨hs, hr⟩ := h
          subst hs
          subst hr
          have hlen2 : (r2.take (digitsVal (x.takeWhile isDigit))).length =
              digitsVal (x.takeWhile isDigit) := by
            rw [List.length_take]
            omega
          rw [hlen2, canonicalDigits_roundtrip _ hc]
          subst h58
          conv_rhs => rw [← List.takeWhile_append_dropWhile isDigit x, hm]
          rw [List.append_assoc, List.cons_append, List.take_append_drop]
        · rw [if_neg hn] at h
          exact Option.noConfusion h
      · rw [if_neg h58] at h
        exact Option.noConfusion h
  · rw [if_neg hc] at h
    exact Option.noConfusion h

/-- Helper: a successful integer-body decode reproduces its input bytes. -/
theorem decodeIntBody_sound (x : List Nat) (i : Int) (r : List Nat)
    (h : decodeIntBody x = some (i, r)) :
    (intDigits i ++ [101]) ++ r = x := by
  cases x with
  | nil =>
    simp only [decodeIntBody] at h
    exact Option.noConfusion h
  | cons c y =>
    simp only [decodeIntBody] at h
    by_cases h45 : c = 45
    · rw [if_pos h45] at h
      by_cases hbad : ((y.takeWhile isDigit).isEmpty ||
          decide ((y.takeWhile isDigit).headD 0 = 48)) = true
      · rw [if_pos hbad] at h
        exact Option.noConfusion h
      · rw [if_neg hbad] at h
        cases hm : y.dropWhile isDigit with
        | nil =>
          rw [hm] at h
          simp only [decodeIntNeg] at h
          exact Option.noConfusion h
        | cons e r2 =>
          rw [hm] at h
          simp only [decodeIntNeg] at h
          by_cases he : e = 101
          · rw [if_pos he] at h
            simp only [Option.some.injEq, Prod.mk.injEq] at h
            obtain ⟨hi, hr⟩ := h
            subst hr
            subst he
            subst h45
            obtain ⟨hb1, hb2⟩ := not_or.mp ((Bool.or_eq_true _ _).symm ▸ hbad)
            have hne : y.takeWhile isDigit ≠ [] := by
              intro hempty
              exact hb1 (by rw [hempty]; rfl)
            have hh : (y.takeWhile isDigit).headD 0 ≠ 48 := by
              simpa using hb2
            have hall := takeWhile_all_digits y
            have hpos : 0 < digitsVal (y.takeWhile isDigit) :=
              digitsVal_pos _ hne hall hh
            have hcan : canonicalDigits (y.takeWhile isDigit) = true := by
              have hemp : (y.takeWhile isDigit).isEmpty = false := by
                cases hx : y.takeWhile isDigit with
                | nil => exact absurd hx hne
                | cons a t => rfl
              simp [canonicalDigits, hall, hemp]
              left
              simpa using hh
            have hneg : intDigits i =
                45 :: natDigits (digitsVal (y.takeWhile isDigit)) := by
              rw [← hi]
              unfold intDigits
              have hcast : (0 : Int) < (digitsVal (y.takeWhile isDigit) : Int) := by
                exact_mod_cast hpos
              rw [if_pos (neg_neg_of_pos hcast)]
              congr 1
              simp
            rw [hneg, List.cons_append, canonicalDigits_roundtrip _ hcan]
            conv_rhs => rw [← List.takeWhile_append_dropWhile isDigit y, hm]
            simp [List.append_assoc]
          · rw [if_neg he] at h
            exact Option.noConfusion h
    · rw [if_neg h45] at h
      by_cases hc : canonicalDigits ((c :: y).takeWhile isDigit) = true
      · rw [if_pos hc] at h
        cases hm : (c :: y).dropWhile isDigit with
        | nil =>
          rw [hm] at h
          simp only [decodeIntPos] at h
          exact Option.noConfusion h
        | cons e r2 =>
          rw [hm] at h
          simp only [decodeIntPos] at h
          by_cases he : e = 101
          · rw [if_pos he] at h
            simp only [Option.some.injEq, Prod.mk.injEq] at h
            obtain ⟨hi, hr⟩ := h
            subst hr
            subst he
            have hnn : intDigits i =
                natDigits (digitsVal ((c :: y).takeWhile isDigit)) := by
              rw [← hi]
              unfold intDigits
              rw [if_neg (by
                exact not_lt.mpr (Int.natCast_nonneg _))]
              simp
            rw [hnn, canonicalDigits_roundtrip _ hc]
            conv_rhs => rw [← List.takeWhile_append_dropWhile isDigit (c :: y), hm]
            simp [List.append_assoc]
          · rw [if_neg he] at h
            exact Option.noConfusion h
      · rw [if_neg hc] at h
        exact Option.noConfusion h

/-- Helper: decoder soundness, jointly for values, list items and dictionary
pair sequences — every successful decode re-encodes to exactly the bytes it
consumed, for any fuel. -/
theorem decode_sound : ∀ fuel : Nat,
    (∀ x v r, decodeV fuel x = some (v, r) → bencode v ++ r = x) ∧
    (∀ x l r, decodeItems fuel x = some (l, r) →
      (bencodeItems l ++ [101]) ++ r = x) ∧
    (∀ prev x d r, decodePairs fuel prev x = some (d, r) →
      (bencodeDict d ++ [101]) ++ r = x) := by
  intro fuel
  induction fuel with
  | zero =>
    refine ⟨?_, ?_, ?_⟩
    · intro x v r h
      simp only [decodeV] at h
      exact Option.noConfusion h
    · intro x l r h
      simp only [decodeItems] at h
      exact Option.noConfusion h
    · intro prev x d r h
      simp only [decodePairs] at h
      exact Option.noConfusion h
  | succ f ih =>
    obtain ⟨ihV, ihI, ihP⟩ := ih
    refine ⟨?_, ?_, ?_⟩
    · intro x v r h
      cases x with
      | nil =>
        simp only [decodeV] at h
        exact Option.noConfusion h
      | cons c y =>
        simp only [decodeV] at h
        by_cases h105 : c = 105
        · rw [if_pos h105] at h
          cases hib : decodeIntBody y with
          | none =>
            rw [hib] at h
            exact Option.noConfusion h
          | some p =>
            rw [hib, Option.map_some'] at h
            simp only [Option.some.injEq, Prod.mk.injEq] at h
            obtain ⟨hv, hr⟩ := h
            subst hv
            subst hr
            subst h105
            have hs := decodeIntBody_sound y p.1 p.2 (by rw [hib])
            simp only [bencode]
            rw [List.cons_append, hs]
        · by_cases h108 : c = 108
          · rw [if_neg h105, if_pos h108] at h
            cases hit : decodeItems f y with
            | none =>
              rw [hit] at h
              exact Option.noConfusion h
            | some p =>
              rw [hit, Option.map_some'] at h
              simp only [Option.some.injEq, Prod.mk.injEq] at h
              obtain ⟨hv, hr⟩ := h
              subst hv
              subst hr
              subst h108
              have hs := ihI y p.1 p.2 (by rw [hit])
              simp only [bencode]
              rw [List.cons_append, hs]
          · by_cases h100 : c = 100
            · rw [if_neg h105, if_neg h108, if_pos h100] at h
              cases hdp : decodePairs f none y with
              | none =>
                rw [hdp] at h
                exact Option.noConfusion h
              | some p =>
                rw [hdp, Option.map_some'] at h
                simp only [Option.some.injEq, Prod.mk.injEq] at h
                obtain ⟨hv, hr⟩ := h
                subst hv
                subst hr
                subst h100
                have hs := ihP none y p.1 p.2 (by rw [hdp])
                simp only [bencode]
                rw [List.cons_append, hs]
            · rw [if_neg h105, if_neg h108, if_neg h100] at h
              cases hsa : decodeStrAt (c :: y) with
              | none =>
                rw [hsa] at h
                exact Option.noConfusion h
              | some p =>
                rw [hsa, Option.map_some'] at h
                simp only [Option.some.injEq, Prod.mk.injEq] at h
                obtain ⟨hv, hr⟩ := h
                subst hv
                subst hr
                have hs := decodeStrAt_sound (c :: y) p.1 p.2 (by rw [hsa])
                simp only [bencode]
                exact hs
    · intro x l r h
      cases x with
      | nil =>
        simp only [decodeItems] at h
        exact Option.noConfusion h
      | cons c y =>
        simp only [decodeItems] at h
        by_cases h101 : c = 101
        · rw [if_pos h101] at h
          simp only [Option.some.injEq, Prod.mk.injEq] at h
          obtain ⟨hl, hy⟩ := h
          subst hl
          subst hy
          subst h101
          simp [bencodeItems]
        · rw [if_neg h101] at h
          cases hv : decodeV f (c :: y) with
          | none =>
            rw [hv] at h
            exact Option.noConfusion h
          | some vp =>
            rw [hv, Option.some_bind] at h
            cases hlp : decodeItems f vp.2 with
            | none =>
              rw [hlp] at h
              exact Option.noConfusion h
            | some lp =>
              rw [hlp, Option.some_bind] at h
              simp only [Option.some.injEq, Prod.mk.injEq] at h
              obtain ⟨hl, hr⟩ := h
              subst hl
              subst hr
              have e1 := ihV (c :: y) vp.1 vp.2 (by rw [hv])
              have e2 := ihI vp.2 lp.1 lp.2 (by rw [hlp])
              rw [← e1, ← e2]
              simp only [bencodeItems]
              simp [List.append_assoc]
    · intro prev x d r h
      cases x with
      | nil =>
        simp only [decodePairs] at h
        exact Option.noConfusion h
      | cons c y =>
        simp only [decodePairs] at h
        by_cases h101 : c = 101
        · rw [if_pos h101] at h
          simp only [Option.some.injEq, Prod.mk.injEq] at h
          obtain ⟨hd, hy⟩ := h
          subst hd
          subst hy
          subst h101
          simp [bencodeDict]
        · rw [if_neg h101] at h
          cases hk : decodeStrAt (c :: y) with
          | none =>
            rw [hk] at h
            exact Option.noConfusion h
          | some kp =>
            rw [hk, Option.some_bind] at h
            by_cases hko : keyOk prev kp.1 = true
            · rw [if_pos hko] at h
              cases hv : decodeV f kp.2 with
              | none =>
                rw [hv] at h
                exact Option.noConfusion h
              | some vp =>
                rw [hv, Option.some_bind] at h
                cases hdp : decodePairs f (some kp.1) vp.2 with
                | none =>
                  rw [hdp] at h
                  exact Option.noConfusion h
                | some dp =>
                  rw [hdp, Option.some_bind] at h
                  simp only [Option.some.injEq, Prod.mk.injEq] at h
                  obtain ⟨hd, hr⟩ := h
                  subst hd
                  subst hr
                  have e1 := decodeStrAt_sound (c :: y) kp.1 kp.2 (by rw [hk])
                  have e2 := ihV kp.2 vp.1 vp.2 (by rw [hv])
                  have e3 := ihP (some kp.1) vp.2 dp.1 dp.2 (by rw [hdp])
                  rw [← e1, ← e2, ← e3]
                  simp only [bencodeDict]
                  simp [List.append_assoc]
            · rw [if_neg hko] at h
              exact Option.noConfusion h

/-- The round-trip encoder equality for the top-level decoder. -/
theorem bdecode_sound (x : List Nat) (v : Bval) (r : List Nat)
    (h : bdecode x = some (v, r)) : bencode v ++ r = x :=
  (decode_sound (x.length + 1)).1 x v r h

/-- C8: for every byte string the decoder accepts, re-encoding the decoded
value reproduces the input byte-for-byte (key order and integer encoding
included); in particular, when the input is consumed entirely, any hash — in
the source, the SHA-1 taken by Torrent::info_hash of the re-encoded `info`
dictionary — agrees on the re-encoding and on the original bytes. -/
theorem C8_bencode_decode_roundtrip (x : List Nat) (v : Bval) (r : List Nat)
    (sha1 : List Nat → List Nat) (h : bdecode x = some (v, r)) :
    bencode v ++ r = x ∧
    (r = [] → bencode v = x ∧ sha1 (bencode v) = sha1 x) := by
  have h1 := bdecode_sound x v r h
  refine ⟨h1, fun hr => ?_⟩
  subst hr
  rw [List.append_nil] at h1
  exact ⟨h1, by rw [h1]⟩

theorem C8_bencode_decode_roundtrip_witness :
    bencode (Bval.bdict [([102, 111, 111], Bval.bstr [98, 97, 114]),
        ([104, 101, 108, 108, 111], Bval.bint 52)]) ++ [] =
      [100, 51, 58, 102, 111, 111, 51, 58, 98, 97, 114, 53, 58, 104, 101,
       108, 108, 111, 105, 53, 50, 101, 101] ∧
    bencode (Bval.bdict [([102, 111, 111], Bval.bstr [98, 97, 114]),
        ([104, 101, 108, 108, 111], Bval.bint 52)]) =
      [100, 51, 58, 102, 111, 111, 51, 58, 98, 97, 114, 53, 58, 104, 101,
       108, 108, 111, 105, 53, 50, 101, 101] := by
  have h := C8_bencode_decode_roundtrip
    [100, 51, 58, 102, 111, 111, 51, 58, 98, 97, 114, 53, 58, 104, 101,
     108, 108, 111, 105, 53, 50, 101, 101]
    (Bval.bdict [([102, 111, 111], Bval.bstr [98, 97, 114]),
      ([104, 101, 108, 108, 111], Bval.bint 52)])
    [] id (by rfl)
  exact ⟨h.1, (h.2 rfl).1⟩

end BT
